import Mathlib

/-!
# Verification of `abstract_level_analyzer.py`

A shallow embedding of the sentence-segmentation / abstraction-scoring
pipeline of `abstract_level_analyzer.py`, together with proofs of the
behavioural claims about it.

Strings are modelled as `List Char` (Python `str` is a sequence of Unicode
code points).  Python functions that may raise are modelled with `Except`;
the external OpenAI call and the file system are modelled as explicit
parameters, since they are outside the program text.
-/

namespace AbstractLevelAnalyzer

/-- The whitespace characters of Python: the set matched by `str.strip()`,
`str.rstrip()` and by `\s` in a (Unicode) `re` pattern.  ASCII whitespace,
the C0 separator block, NEL, NBSP, the Unicode space blocks, the line and
paragraph separators, and the ideographic space U+3000. -/
def pySpaceChars : List Char :=
  [' ', '\t', '\n', '\r', '\x0b', '\x0c',
   '\x1c', '\x1d', '\x1e', '\x1f', '\x85', '\xa0',
   ' ', ' ', ' ', ' ', ' ', ' ', ' ',
   ' ', ' ', ' ', ' ', ' ',
   ' ', ' ', ' ', ' ', '　']

/-- `c` is Python whitespace. -/
def isPySpace (c : Char) : Bool := pySpaceChars.contains c

/-- Python `str.strip()`: drop leading whitespace, then drop trailing
whitespace (implemented as a `dropWhile` on each side via `reverse`). -/
def strip (l : List Char) : List Char :=
  (((l.dropWhile isPySpace).reverse).dropWhile isPySpace).reverse

/-- Python `str.rstrip()`: drop trailing whitespace only. -/
def rstrip (l : List Char) : List Char :=
  ((l.reverse).dropWhile isPySpace).reverse

/-- The sentence-terminal characters of the source's regex character class
`[。．.!?]` (line 17): ideographic full stop U+3002, fullwidth full stop
U+FF0E, and the halfwidth `.`, `!`, `?`.  Note that the fullwidth
exclamation mark U+FF01 and fullwidth question mark U+FF1F are *not* in
the class. -/
def isSentenceEnding (c : Char) : Bool :=
  c ∈ ['。', '．', '.', '!', '?']

/-- The split of `re.split(r"(?<=[。．.!?])\s*", text)` (line 18), phrased
without consuming the separator: the text is cut immediately after every
sentence-terminal character, and the whitespace run that the regex would
consume is left at the head of the following piece.  Since line 20 strips
every piece afterwards, this yields the same sentences as the regex split
(`reSplit_strip_eq` below proves agreement with the separator-consuming
model `reSplit`).  The final piece is whatever follows the last terminal
(possibly empty), matching `re.split`'s trailing empty piece. -/
def splitAtTerminals (l : List Char) : List (List Char) :=
  match l with
  | [] => [[]]
  | c :: rest =>
    if isSentenceEnding c then
      [c] :: splitAtTerminals rest
    else
      match splitAtTerminals rest with
      | [] => [[c]]
      | p :: ps => (c :: p) :: ps

/-- The separator-consuming reading of `re.split(r"(?<=[。．.!?])\s*", text)`:
cut after every sentence-terminal character and drop the whitespace run
that follows it (the matched `\s*` separator).  This is the literal model
of the regex; `reSplit_strip_eq` shows it produces the same stripped
pieces as `splitAtTerminals`. -/
def reSplit (l : List Char) : List (List Char) :=
  match l with
  | [] => [[]]
  | c :: rest =>
    if isSentenceEnding c then
      [c] :: reSplit (rest.dropWhile isPySpace)
    else
      match reSplit rest with
      | [] => [[c]]
      | p :: ps => (c :: p) :: ps
termination_by l.length
decreasing_by
· exact Nat.lt_succ_of_le ((List.dropWhile_sublist isPySpace).length_le)
· exact Nat.lt_succ_self rest.length

/-- `split_into_sentences` (lines 14-20): strip the text, split it at the
sentence terminals, strip every piece and drop the empty ones. -/
def split_into_sentences (text : List Char) : List (List Char) :=
  (((splitAtTerminals (strip text)).map strip).filter (fun s => s ≠ []))

/-- The line-boundary characters of Python `str.splitlines()` other than
the two-character boundary `"\r\n"`, which `splitlinesAux` handles as its
own pattern. -/
def isPyLineBreak (c : Char) : Bool :=
  c ∈ ['\n', '\r', '\x0b', '\x0c', '\x1c', '\x1d', '\x1e', '\x85', ' ', ' ']

/-- Python `str.splitlines()`: accumulate the current line (reversed) and
cut at every line boundary; a final line break does not open an extra
empty line. -/
def splitlinesAux : List Char → List Char → List (List Char)
  | [], acc => if acc.isEmpty then [] else [acc.reverse]
  | '\r' :: '\n' :: rest, acc => acc.reverse :: splitlinesAux rest []
  | c :: rest, acc =>
    if isPyLineBreak c then acc.reverse :: splitlinesAux rest []
    else splitlinesAux rest (c :: acc)

/-- Python `str.splitlines()`. -/
def splitlines (l : List Char) : List (List Char) := splitlinesAux l []

/-- The paragraph list of `analyze_text` (line 81):
`[p.strip() for p in text.splitlines() if p.strip()]` — the stripped
non-blank lines, in document order.  (The spec calls this operation
`split_paragraphs`.) -/
def split_paragraphs (text : List Char) : List (List Char) :=
  ((splitlines text).map strip).filter (fun p => p ≠ [])

/-- One entry of `analyze_text`'s result list (line 87):
`{"sentence": ..., "level": ..., "paragraph": ...}`. -/
structure ClassificationResult where
  sentence : List Char
  level : Nat
  paragraph : Nat
deriving DecidableEq, Repr

/-- The first character for which Python `\d` would match in an ASCII
response, as searched by `re.search(r"(\d)", content)` (line 73).
(Python's `\d` also matches non-ASCII decimal digits; the claims under
study only concern ASCII responses, where the two sets agree.) -/
def firstDigitChar : List Char → Option Char
  | [] => none
  | c :: rest => if c.isDigit then some c else firstDigitChar rest

/-- The response handling of `analyze_sentence` (lines 72-76), as a function
of the classifier's response text `content` (the network call itself is
external).  The response is stripped, the first digit character found
anywhere in it becomes the level via `int(...)`, and if no digit exists the
`.group(1)` call on `None` raises, which the `except` turns into a
`RuntimeError` (modelled as `Except.error`).  No range check is applied to
the digit. -/
def analyze_sentence (content : List Char) : Except Unit Nat :=
  match firstDigitChar (strip content) with
  | some c => Except.ok (c.toNat - '0'.toNat)
  | none => Except.error ()

/-- `analyze_text` (lines 79-88), with the per-sentence classifier call
abstracted as the total function `classify` (the scenario in the claims
replaces the network call by a mock).  The nested `for` loops appending to
`results` are mirrored by nested left folds over the enumerated paragraphs
(`enumerate(paragraphs, start=1)` is `enum` plus one) and the sentences. -/
def analyze_text (classify : List Char → Nat) (text : List Char) :
    List ClassificationResult :=
  (split_paragraphs text).enum.foldl
    (fun results pi =>
      (split_into_sentences pi.2).foldl
        (fun results sentence =>
          results ++ [⟨sentence, classify sentence, pi.1 + 1⟩])
        results)
    []

/-- Decimal rendering of a natural number (Python `str(n)` / `f"{n}"`),
written with a structural fuel argument so that it evaluates inside the
kernel; `n + 1` units of fuel always suffice since `n / 10 < n`. -/
def natReprAux : Nat → Nat → List Char
  | 0, _ => []
  | fuel + 1, n =>
    if n < 10 then [Char.ofNat (48 + n)]
    else natReprAux fuel (n / 10) ++ [Char.ofNat (48 + n % 10)]

/-- Python `str(n)` for a natural number. -/
def natRepr (n : Nat) : List Char := natReprAux (n + 1) n

/-- Python `str(i)` for an integer (used for the few-shot `level` field). -/
def intRepr (i : Int) : List Char :=
  if i < 0 then '-' :: natRepr i.natAbs else natRepr i.natAbs

/-- One level row of `_print_ascii_graph` before its `rstrip` (lines
97-100): `f"{lvl} | "` followed, for each sentence's level `val`, by
`"#"` when `val >= lvl` (else a space) and a trailing space. -/
def levelRow (levels : List Nat) (lvl : Nat) : List Char :=
  natRepr lvl ++ (" | ".toList) ++
    (levels.map (fun val => [if lvl ≤ val then '#' else ' ', ' '])).flatten

/-- The paragraph-boundary marker row of `_print_ascii_graph` before its
`rstrip` (lines 105-110): five spaces, then for each position `i` the two
characters `"| "` when `i > 0` and the paragraph index changed at `i`,
else two spaces. -/
def markerRow (paragraphs : List Nat) : List Char :=
  "     ".toList ++
    ((List.range paragraphs.length).map (fun i =>
      if i ≠ 0 ∧ paragraphs.getD i 0 ≠ paragraphs.getD (i - 1) 0 then
        ['|', ' ']
      else [' ', ' '])).flatten

/-- The levels column of `_print_ascii_graph` (line 93). -/
def graphLevels (results : List ClassificationResult) : List Nat :=
  results.map (fun r => r.level)

/-- The paragraphs column of `_print_ascii_graph` (line 94). -/
def graphParagraphs (results : List ClassificationResult) : List Nat :=
  results.map (fun r => r.paragraph)

/-- `max(levels) if levels else 0` (line 95). -/
def graphMaxLevel (results : List ClassificationResult) : Nat :=
  (graphLevels results).foldl max 0

/-- `_print_ascii_graph` (lines 91-111) as the list of printed lines:
the level rows from `max_level` down to `1`, each `rstrip`ped; the dash
separator line (printed as built, no `rstrip`); the sentence-index line
(printed as built, no `rstrip`); and, only when more than one distinct
paragraph index occurs (`len(set(paragraphs)) > 1`), the `rstrip`ped
paragraph marker row. -/
def _print_ascii_graph (results : List ClassificationResult) :
    List (List Char) :=
  ((List.range (graphMaxLevel results)).map (fun i =>
      rstrip (levelRow (graphLevels results) (graphMaxLevel results - i))))
  ++ ["    ".toList ++ List.replicate (2 * (graphLevels results).length) '-']
  ++ ["     ".toList ++
        List.intercalate [' ']
          ((List.range (graphLevels results).length).map
            (fun i => natRepr (i + 1)))]
  ++ (if 1 < (graphParagraphs results).eraseDups.length then
        [rstrip (markerRow (graphParagraphs results))]
      else [])

/-- One entry of the `fewshot.json` configuration as the loader reads it:
`item.get("sentence")` and `item.get("level")` may each be absent. -/
structure FewShotItem where
  sentence : Option (List Char)
  level : Option Int

/-- The built-in few-shot string returned when `fewshot.json` does not
exist (lines 28-34 of the source). -/
def builtin_few_shot_examples : List Char :=
  ("文: このプレゼンテーションでは、プロジェクトの目標について説明します。\nレベル: 1\n" ++
   "文: 雲は気象学において大気中の水滴や氷晶が集まったものです。\nレベル: 2\n" ++
   "文: 日本経済の構造改革は複数の要因が複雑に絡み合っています。\nレベル: 3\n" ++
   "文: 存在論的な議論では、存在そのものの定義が問われます。\nレベル: 4\n" ++
   "文: 意識の本質は何かという問いは哲学の中でも最も抽象的な議論の一つです。\nレベル: 5\n").toList

/-- `_load_few_shot_examples` (lines 24-46) as a function of the state of
the external `fewshot.json` file: `none` models a missing file
(`not path.exists()`), `some (Except.error ())` models a file whose read,
parse or traversal raises (the `except Exception` branch, line 45-46,
which returns the empty string), and `some (Except.ok data)` models a
successfully parsed list of records.  In the parsed case each record with
both fields present is rendered as `f"文: {sentence}\nレベル: {level}\n"`
and the renderings are concatenated (`"".join`). -/
def _load_few_shot_examples
    (fewshotFile : Option (Except Unit (List FewShotItem))) : List Char :=
  match fewshotFile with
  | none => builtin_few_shot_examples
  | some (Except.error _) => []
  | some (Except.ok data) =>
    (data.filterMap (fun item =>
      match item.sentence, item.level with
      | some s, some l =>
          some ("文: ".toList ++ s ++ "\nレベル: ".toList ++ intRepr l ++ ['\n'])
      | _, _ => none)).flatten

/-! ### Whitespace and `strip` lemmas -/

/-- A sentence-terminal character is never whitespace. -/
lemma ending_not_space {c : Char} (h : isSentenceEnding c = true) :
    isPySpace c = false := by
  have hc : c ∈ ['。', '．', '.', '!', '?'] := by simpa [isSentenceEnding] using h
  fin_cases hc <;> decide

/-- A whitespace character is never a sentence terminal. -/
lemma space_not_ending {c : Char} (h : isPySpace c = true) :
    isSentenceEnding c = false := by
  cases he : isSentenceEnding c
  · rfl
  · rw [ending_not_space he] at h
    exact absurd h (by simp)

lemma dropWhile_dropWhile (p : Char → Bool) (l : List Char) :
    (l.dropWhile p).dropWhile p = l.dropWhile p := by
  induction l with
  | nil => rfl
  | cons c rest ih =>
    by_cases h : p c
    · simp [List.dropWhile_cons, h, ih]
    · simp [List.dropWhile_cons, h]

lemma dropWhile_append_eq (p : Char → Bool) (l₁ l₂ : List Char) :
    (l₁ ++ l₂).dropWhile p =
      if l₁.dropWhile p = [] then l₂.dropWhile p else l₁.dropWhile p ++ l₂ := by
  induction l₁ with
  | nil => simp
  | cons c rest ih =>
    by_cases h : p c
    · simpa [List.dropWhile_cons, h] using ih
    · simp [List.dropWhile_cons, h]

lemma filter_not_dropWhile (l : List Char) :
    (l.dropWhile isPySpace).filter (fun c => !isPySpace c) =
      l.filter (fun c => !isPySpace c) := by
  induction l with
  | nil => rfl
  | cons c rest ih =>
    by_cases h : isPySpace c
    · simp [List.dropWhile_cons, h, ih, List.filter_cons]
    · simp [List.dropWhile_cons, h]

lemma filter_not_strip (l : List Char) :
    (strip l).filter (fun c => !isPySpace c) = l.filter (fun c => !isPySpace c) := by
  unfold strip
  rw [List.filter_reverse, filter_not_dropWhile, List.filter_reverse,
    List.reverse_reverse, filter_not_dropWhile]

lemma strip_sublist (l : List Char) : List.Sublist (strip l) l := by
  have h1 := (List.dropWhile_sublist (l := (l.dropWhile isPySpace).reverse) isPySpace).reverse
  rw [List.reverse_reverse] at h1
  exact h1.trans (List.dropWhile_sublist _)

lemma rstrip_idem (l : List Char) : rstrip (rstrip l) = rstrip l := by
  unfold rstrip
  rw [List.reverse_reverse, dropWhile_dropWhile]

lemma rstrip_concat_nonws {x : Char} (hx : isPySpace x = false) (l : List Char) :
    rstrip (l ++ [x]) = l ++ [x] := by
  unfold rstrip
  rw [List.reverse_append]
  simp [List.dropWhile_cons, hx]

lemma strip_concat_ws {x : Char} (hx : isPySpace x = true) (l : List Char) :
    strip (l ++ [x]) = strip l := by
  unfold strip
  rw [dropWhile_append_eq]
  by_cases h : l.dropWhile isPySpace = []
  · simp [h, List.dropWhile_cons, hx]
  · rw [if_neg h, List.reverse_append]
    simp [List.dropWhile_cons, hx]

lemma strip_concat_nonws {x : Char} (hx : isPySpace x = false) (l : List Char) :
    strip (l ++ [x]) = l.dropWhile isPySpace ++ [x] := by
  unfold strip
  have hd : (l ++ [x]).dropWhile isPySpace = l.dropWhile isPySpace ++ [x] := by
    rw [dropWhile_append_eq]
    by_cases h : l.dropWhile isPySpace = []
    · simp [h, List.dropWhile_cons, hx]
    · rw [if_neg h]
  rw [hd, List.reverse_append]
  simp [List.dropWhile_cons, hx]

lemma strip_idem (l : List Char) : strip (strip l) = strip l := by
  induction l using List.reverseRecOn with
  | nil => rfl
  | append_singleton l' x ih =>
    by_cases hx : isPySpace x
    · rw [strip_concat_ws hx]
      exact ih
    · have hx' : isPySpace x = false := by simpa using hx
      rw [strip_concat_nonws hx', strip_concat_nonws hx', dropWhile_dropWhile]

lemma strip_dropWhile (l : List Char) :
    strip (l.dropWhile isPySpace) = strip l := by
  unfold strip
  rw [dropWhile_dropWhile]

/-! ### `splitAtTerminals` lemmas -/

lemma splitAtTerminals_nil : splitAtTerminals [] = [[]] := rfl

lemma splitAtTerminals_cons_ending {c : Char} (h : isSentenceEnding c = true)
    (rest : List Char) :
    splitAtTerminals (c :: rest) = [c] :: splitAtTerminals rest := by
  simp [splitAtTerminals, h]

lemma splitAtTerminals_cons_other {c : Char} (h : isSentenceEnding c = false)
    {rest p : List Char} {ps : List (List Char)}
    (hres : splitAtTerminals rest = p :: ps) :
    splitAtTerminals (c :: rest) = (c :: p) :: ps := by
  simp [splitAtTerminals, h, hres]

lemma splitAtTerminals_ne_nil (l : List Char) : splitAtTerminals l ≠ [] := by
  induction l with
  | nil => simp [splitAtTerminals_nil]
  | cons c rest ih =>
    by_cases h : isSentenceEnding c
    · rw [splitAtTerminals_cons_ending h]
      simp
    · cases hres : splitAtTerminals rest with
      | nil => exact absurd hres ih
      | cons p ps =>
        rw [splitAtTerminals_cons_other (by simpa using h) hres]
        simp

lemma flatten_splitAtTerminals (l : List Char) :
    (splitAtTerminals l).flatten = l := by
  induction l with
  | nil => rfl
  | cons c rest ih =>
    by_cases h : isSentenceEnding c
    · rw [splitAtTerminals_cons_ending h]
      simpa using ih
    · cases hres : splitAtTerminals rest with
      | nil => exact absurd hres (splitAtTerminals_ne_nil rest)
      | cons p ps =>
        rw [splitAtTerminals_cons_other (by simpa using h) hres]
        have : (p :: ps).flatten = rest := hres ▸ ih
        simpa using this

lemma splitAtTerminals_of_no_ending {l : List Char}
    (h : ∀ c ∈ l, isSentenceEnding c = false) :
    splitAtTerminals l = [l] := by
  induction l with
  | nil => rfl
  | cons c rest ih =>
    have hrest := ih (fun d hd => h d (List.mem_cons_of_mem _ hd))
    exact splitAtTerminals_cons_other (h c (List.mem_cons_self _ _)) hrest

lemma splitAtTerminals_concat_ending {w : List Char}
    (hw : ∀ c ∈ w, isSentenceEnding c = false)
    {x : Char} (hx : isSentenceEnding x = true) :
    splitAtTerminals (w ++ [x]) = [w ++ [x], []] := by
  induction w with
  | nil =>
    rw [List.nil_append, splitAtTerminals_cons_ending hx, splitAtTerminals_nil]
  | cons c rest ih =>
    have hc := hw c (List.mem_cons_self _ _)
    have hrest := ih (fun d hd => hw d (List.mem_cons_of_mem _ hd))
    rw [List.cons_append, splitAtTerminals_cons_other hc hrest]

lemma splitAtTerminals_dropLast :
    ∀ {l p : List Char}, p ∈ splitAtTerminals l →
      ∀ c ∈ p.dropLast, isSentenceEnding c = false := by
  intro l
  induction l with
  | nil =>
    intro p hp c hc
    rw [splitAtTerminals_nil] at hp
    simp at hp
    subst hp
    simp at hc
  | cons a rest ih =>
    intro p hp c hc
    by_cases ha : isSentenceEnding a
    · rw [splitAtTerminals_cons_ending ha] at hp
      rcases List.mem_cons.mp hp with rfl | hp'
      · simp at hc
      · exact ih hp' c hc
    · have ha' : isSentenceEnding a = false := by simpa using ha
      cases hres : splitAtTerminals rest with
      | nil => exact absurd hres (splitAtTerminals_ne_nil rest)
      | cons q qs =>
        rw [splitAtTerminals_cons_other ha' hres] at hp
        rcases List.mem_cons.mp hp with rfl | hp'
        · cases q with
          | nil => simp at hc
          | cons q0 qt =>
            rw [List.dropLast_cons₂] at hc
            rcases List.mem_cons.mp hc with rfl | hc'
            · exact ha'
            · exact ih (hres ▸ List.mem_cons_self _ _) c hc'
        · exact ih (hres ▸ List.mem_cons_of_mem _ hp') c hc

lemma splitAtTerminals_dropWhile :
    ∀ {l p : List Char} {ps : List (List Char)},
      splitAtTerminals l = p :: ps →
      splitAtTerminals (l.dropWhile isPySpace) =
        p.dropWhile isPySpace :: ps := by
  intro l
  induction l with
  | nil =>
    intro p ps h
    rw [splitAtTerminals_nil] at h
    injection h with h1 h2
    subst h1; subst h2
    rfl
  | cons a rest ih =>
    intro p ps h
    by_cases ha : isPySpace a
    · have ha' : isSentenceEnding a = false := space_not_ending ha
      cases hres : splitAtTerminals rest with
      | nil => exact absurd hres (splitAtTerminals_ne_nil rest)
      | cons q qs =>
        rw [splitAtTerminals_cons_other ha' hres] at h
        injection h with h1 h2
        subst h2
        have hstep := ih hres
        rw [List.dropWhile_cons]
        simp only [ha, if_true]
        rw [hstep, ← h1]
        rw [List.dropWhile_cons]
        simp [ha]
    · have ha' : isPySpace a = false := by simpa using ha
      rw [List.dropWhile_cons]
      simp only [ha', Bool.false_eq_true, if_false]
      rw [h]
      by_cases hae : isSentenceEnding a
      · rw [splitAtTerminals_cons_ending hae] at h
        injection h with h1 h2
        subst h1
        rw [List.dropWhile_cons]
        simp [ha']
      · have hae' : isSentenceEnding a = false := by simpa using hae
        cases hres : splitAtTerminals rest with
        | nil => exact absurd hres (splitAtTerminals_ne_nil rest)
        | cons q qs =>
          rw [splitAtTerminals_cons_other hae' hres] at h
          injection h with h1 h2
          subst h1
          rw [List.dropWhile_cons]
          simp [ha']

/-! ### Agreement of `reSplit` with `splitAtTerminals` -/

lemma reSplit_nil : reSplit [] = [[]] := by
  simp [reSplit]

lemma reSplit_cons_ending {c : Char} (h : isSentenceEnding c = true)
    (rest : List Char) :
    reSplit (c :: rest) = [c] :: reSplit (rest.dropWhile isPySpace) := by
  rw [reSplit]
  simp [h]

lemma reSplit_cons_other {c : Char} (h : isSentenceEnding c = false)
    {rest p : List Char} {ps : List (List Char)} (hres : reSplit rest = p :: ps) :
    reSplit (c :: rest) = (c :: p) :: ps := by
  rw [reSplit]
  simp [h, hres]

lemma reSplit_eq_aux :
    ∀ (n : Nat) (l : List Char), l.length ≤ n →
      ∀ {p : List Char} {ps : List (List Char)},
        splitAtTerminals l = p :: ps →
        reSplit l = p :: ps.map (fun q => q.dropWhile isPySpace) := by
  intro n
  induction n with
  | zero =>
    intro l hl p ps h
    have : l = [] := List.length_eq_zero.mp (Nat.le_zero.mp hl)
    subst this
    rw [splitAtTerminals_nil] at h
    injection h with h1 h2
    subst h1; subst h2
    exact reSplit_nil
  | succ n ih =>
    intro l hl p ps h
    cases l with
    | nil =>
      rw [splitAtTerminals_nil] at h
      injection h with h1 h2
      subst h1; subst h2
      exact reSplit_nil
    | cons a rest =>
      by_cases ha : isSentenceEnding a
      · rw [splitAtTerminals_cons_ending ha] at h
        injection h with h1 h2
        subst h1
        cases hres : splitAtTerminals rest with
        | nil => exact absurd hres (splitAtTerminals_ne_nil rest)
        | cons q qs =>
          subst h2
          have hdrop := splitAtTerminals_dropWhile hres
          have hlen : (rest.dropWhile isPySpace).length ≤ n := by
            have h1 := (List.dropWhile_sublist (l := rest) isPySpace).length_le
            have h2 : rest.length ≤ n := by simpa using Nat.succ_le_succ_iff.mp hl
            omega
          have hrec := ih (rest.dropWhile isPySpace) hlen hdrop
          rw [reSplit_cons_ending ha, hrec, hres]
          simp
      · have ha' : isSentenceEnding a = false := by simpa using ha
        cases hres : splitAtTerminals rest with
        | nil => exact absurd hres (splitAtTerminals_ne_nil rest)
        | cons q qs =>
          rw [splitAtTerminals_cons_other ha' hres] at h
          injection h with h1 h2
          subst h1; subst h2
          have hlen : rest.length ≤ n := by simpa using Nat.succ_le_succ_iff.mp hl
          have hrec := ih rest hlen hres
          exact reSplit_cons_other ha' hrec

lemma reSplit_strip_eq (l : List Char) :
    (reSplit l).map strip = (splitAtTerminals l).map strip := by
  cases hres : splitAtTerminals l with
  | nil => exact absurd hres (splitAtTerminals_ne_nil l)
  | cons p ps =>
    rw [reSplit_eq_aux l.length l (le_refl _) hres]
    simp only [List.map_cons, List.map_map]
    congr 1
    exact List.map_congr_left (fun q _ => strip_dropWhile q)

/-- Faithfulness of the embedding's split to the regex reading that consumes
the matched `\s*` separator: both give the same sentence list. -/
theorem split_into_sentences_eq_reSplit (text : List Char) :
    split_into_sentences text =
      ((reSplit (strip text)).map strip).filter (fun s => s ≠ []) := by
  unfold split_into_sentences
  rw [reSplit_strip_eq]

/-! ### Content preservation of the splitter -/

lemma flatten_filter_ne_nil (L : List (List Char)) :
    (L.filter (fun s => s ≠ [])).flatten = L.flatten := by
  induction L with
  | nil => rfl
  | cons a L ih =>
    rw [List.filter_cons]
    by_cases h : a = []
    · rw [if_neg (by simp [h]), List.flatten_cons, h, List.nil_append]
      exact ih
    · rw [if_pos (decide_eq_true h), List.flatten_cons, List.flatten_cons, ih]

lemma flatten_map_strip_sublist (L : List (List Char)) :
    List.Sublist ((L.map strip).flatten) L.flatten := by
  induction L with
  | nil => simp
  | cons a L ih => simpa using (strip_sublist a).append ih

lemma filter_flatten_map_strip (L : List (List Char)) :
    ((L.map strip).flatten).filter (fun c => !isPySpace c) =
      (L.flatten).filter (fun c => !isPySpace c) := by
  induction L with
  | nil => rfl
  | cons a L ih => simp [List.filter_append, filter_not_strip, ih]

lemma split_flatten_sublist (T : List Char) :
    List.Sublist ((split_into_sentences T).flatten) T := by
  unfold split_into_sentences
  rw [flatten_filter_ne_nil]
  have h1 := flatten_map_strip_sublist (splitAtTerminals (strip T))
  rw [flatten_splitAtTerminals] at h1
  exact h1.trans (strip_sublist T)

lemma split_flatten_filter (T : List Char) :
    ((split_into_sentences T).flatten).filter (fun c => !isPySpace c) =
      T.filter (fun c => !isPySpace c) := by
  unfold split_into_sentences
  rw [flatten_filter_ne_nil, filter_flatten_map_strip,
    flatten_splitAtTerminals, filter_not_strip]

/-! ### The splitter on terminal-free and already-split inputs -/

lemma split_of_no_ending {T : List Char}
    (h : ∀ c ∈ T, isSentenceEnding c = false) :
    split_into_sentences T = if strip T = [] then [] else [strip T] := by
  have hs : ∀ c ∈ strip T, isSentenceEnding c = false :=
    fun c hc => h c ((strip_sublist T).subset hc)
  unfold split_into_sentences
  rw [splitAtTerminals_of_no_ending hs, List.map_cons, List.map_nil, strip_idem]
  by_cases h0 : strip T = []
  · simp [List.filter_cons, h0]
  · simp [List.filter_cons, h0]

lemma split_into_sentences_ne_nil {p : List Char} (hp : strip p = p)
    (hne : p ≠ []) : split_into_sentences p ≠ [] := by
  intro h0
  have hfil := split_flatten_filter p
  rw [h0] at hfil
  have hall : ∀ c ∈ p, isPySpace c = true := by
    intro c hc
    have hmem := List.filter_eq_nil_iff.mp hfil.symm c hc
    simpa using hmem
  have hdw : p.dropWhile isPySpace = [] := List.dropWhile_eq_nil_iff.mpr hall
  have hnil : strip p = [] := by
    unfold strip
    rw [hdw]
    rfl
  exact hne (hp ▸ hnil)

lemma strip_piece_split {p : List Char}
    (hp : ∀ c ∈ p.dropLast, isSentenceEnding c = false) :
    (∀ c ∈ (strip p).dropLast, isSentenceEnding c = false) ∧
      (strip p ≠ [] → split_into_sentences (strip p) = [strip p]) := by
  rcases p.eq_nil_or_concat with rfl | ⟨w, x, rfl⟩
  · refine ⟨fun c hc => absurd hc ?_, fun h => absurd rfl h⟩
    simp [strip]
  · simp only [List.concat_eq_append] at hp ⊢
    have hw : ∀ c ∈ w, isSentenceEnding c = false := by
      intro c hc
      exact hp c (by rwa [List.dropLast_concat])
    by_cases hx : isPySpace x
    · rw [strip_concat_ws hx]
      have hw' : ∀ c ∈ strip w, isSentenceEnding c = false :=
        fun c hc => hw c ((strip_sublist w).subset hc)
      refine ⟨fun c hc => hw' c ((List.dropLast_sublist (strip w)).subset hc), ?_⟩
      intro hne
      rw [split_of_no_ending hw', strip_idem, if_neg hne]
    · have hx' : isPySpace x = false := by simpa using hx
      rw [strip_concat_nonws hx']
      have hvw : ∀ c ∈ w.dropWhile isPySpace, isSentenceEnding c = false :=
        fun c hc => hw c ((List.dropWhile_sublist _).subset hc)
      have hstrip : strip (w.dropWhile isPySpace ++ [x]) =
          w.dropWhile isPySpace ++ [x] := by
        rw [strip_concat_nonws hx', dropWhile_dropWhile]
      refine ⟨?_, ?_⟩
      · rw [List.dropLast_concat]
        exact hvw
      · intro _
        by_cases hxe : isSentenceEnding x
        · unfold split_into_sentences
          rw [hstrip, splitAtTerminals_concat_ending hvw hxe]
          simp only [List.map_cons, List.map_nil, hstrip]
          have hne2 : w.dropWhile isPySpace ++ [x] ≠ [] := by simp
          simp [List.filter_cons, hne2, strip]
        · have hxe' : isSentenceEnding x = false := by simpa using hxe
          have hall : ∀ c ∈ w.dropWhile isPySpace ++ [x],
              isSentenceEnding c = false := by
            intro c hc
            rcases List.mem_append.mp hc with h1 | h1
            · exact hvw c h1
            · rw [List.mem_singleton.mp h1]
              exact hxe'
          rw [split_of_no_ending hall, hstrip, if_neg (by simp)]

/-! ### The orchestrator as a flat map over enumerated paragraphs -/

lemma foldl_append_map (g : List Char → ClassificationResult) :
    ∀ (ss : List (List Char)) (r0 : List ClassificationResult),
      ss.foldl (fun rs s => rs ++ [g s]) r0 = r0 ++ ss.map g := by
  intro ss
  induction ss with
  | nil => intro r0; simp
  | cons s ss ih =>
    intro r0
    rw [List.foldl_cons, ih, List.map_cons]
    simp

lemma foldl_paragraphs (classify : List Char → Nat) :
    ∀ (L : List (Nat × List Char)) (r0 : List ClassificationResult),
      L.foldl
        (fun results pi =>
          (split_into_sentences pi.2).foldl
            (fun results sentence =>
              results ++ [⟨sentence, classify sentence, pi.1 + 1⟩])
            results)
        r0 =
      r0 ++ L.flatMap (fun pi =>
        (split_into_sentences pi.2).map
          (fun s => ⟨s, classify s, pi.1 + 1⟩)) := by
  intro L
  induction L with
  | nil => intro r0; simp
  | cons pi L ih =>
    intro r0
    rw [List.foldl_cons,
      foldl_append_map (fun s => ⟨s, classify s, pi.1 + 1⟩), ih,
      List.flatMap_cons]
    simp

lemma analyze_text_eq_flatMap (classify : List Char → Nat) (text : List Char) :
    analyze_text classify text =
      (split_paragraphs text).enum.flatMap (fun pi =>
        (split_into_sentences pi.2).map (fun s =>
          ⟨s, classify s, pi.1 + 1⟩)) := by
  unfold analyze_text
  rw [foldl_paragraphs]
  simp

/-! ### Paragraph index bounds and ordering -/

lemma mem_flatMap_enumFrom_bound (m : List Char → Nat) :
    ∀ (P : List (List Char)) (k x : Nat),
      x ∈ (List.enumFrom k P).flatMap
        (fun pi => List.replicate (m pi.2) (pi.1 + 1)) →
      k + 1 ≤ x := by
  intro P
  induction P with
  | nil => intro k x hx; simp at hx
  | cons a P ih =>
    intro k x hx
    rw [List.enumFrom_cons, List.flatMap_cons] at hx
    rcases List.mem_append.mp hx with h1 | h1
    · rw [List.eq_of_mem_replicate h1]
    · have := ih (k + 1) x h1
      omega

lemma pairwise_le_flatMap_enumFrom (m : List Char → Nat) :
    ∀ (P : List (List Char)) (k : Nat),
      List.Pairwise (· ≤ ·)
        ((List.enumFrom k P).flatMap
          (fun pi => List.replicate (m pi.2) (pi.1 + 1))) := by
  intro P
  induction P with
  | nil => intro k; simp
  | cons a P ih =>
    intro k
    rw [List.enumFrom_cons, List.flatMap_cons]
    rw [List.pairwise_append]
    refine ⟨List.pairwise_replicate.mpr (Or.inr (le_refl _)), ih (k + 1), ?_⟩
    intro x hx y hy
    rw [List.eq_of_mem_replicate hx]
    have := mem_flatMap_enumFrom_bound m P (k + 1) y hy
    omega

/-! ### Digit parsing lemmas -/

lemma firstDigitChar_isDigit :
    ∀ {l : List Char} {c : Char}, firstDigitChar l = some c →
      c.isDigit = true := by
  intro l
  induction l with
  | nil =>
    intro c h
    exact absurd h (by simp [firstDigitChar])
  | cons a rest ih =>
    intro c h
    by_cases ha : a.isDigit
    · rw [firstDigitChar, if_pos ha] at h
      injection h with h1
      subst h1
      exact ha
    · rw [firstDigitChar, if_neg ha] at h
      exact ih h

lemma isDigit_toNat_bounds {c : Char} (h : c.isDigit = true) :
    48 ≤ c.toNat ∧ c.toNat ≤ 57 := by
  unfold Char.isDigit at h
  rw [Bool.and_eq_true] at h
  obtain ⟨h1, h2⟩ := h
  rw [decide_eq_true_iff] at h1 h2
  rw [ge_iff_le] at h1
  rw [UInt32.le_def, BitVec.le_def] at h1 h2
  have e48 : ((48 : UInt32)).toBitVec.toNat = 48 := rfl
  have e57 : ((57 : UInt32)).toBitVec.toNat = 57 := rfl
  rw [e48] at h1
  rw [e57] at h2
  exact ⟨h1, h2⟩

/-! ### Rendering lemmas for the ASCII graph -/

lemma digit_not_space {k : Nat} (hk : k ≤ 9) :
    isPySpace (Char.ofNat (48 + k)) = false := by
  interval_cases k <;> decide

lemma natRepr_concat (m : Nat) :
    ∃ u k, k ≤ 9 ∧ natRepr m = u ++ [Char.ofNat (48 + k)] := by
  by_cases h : m < 10
  · refine ⟨[], m, by omega, ?_⟩
    simp [natRepr, natReprAux, h]
  · refine ⟨natReprAux m (m / 10), m % 10, by omega, ?_⟩
    simp [natRepr, natReprAux, h]

lemma intercalate_concat (sep : List Char) :
    ∀ (ps : List (List Char)) (p : List Char),
      ∃ pre, List.intercalate sep (ps ++ [p]) = pre ++ p := by
  intro ps
  induction ps with
  | nil =>
    intro p
    exact ⟨[], by simp [List.intercalate]⟩
  | cons q ps ih =>
    intro p
    cases ps with
    | nil =>
      refine ⟨q ++ sep, ?_⟩
      simp [List.intercalate, List.intersperse_cons_cons, List.append_assoc]
    | cons r t =>
      obtain ⟨pre, hpre⟩ := ih p
      refine ⟨q ++ sep ++ pre, ?_⟩
      have hshape : (q :: r :: t) ++ [p] = q :: r :: (t ++ [p]) := by simp
      rw [hshape]
      have hcc : List.intercalate sep (q :: r :: (t ++ [p])) =
          q ++ sep ++ List.intercalate sep (r :: (t ++ [p])) := by
        simp [List.intercalate, List.intersperse_cons_cons]
      rw [hcc]
      have hre : r :: (t ++ [p]) = (r :: t) ++ [p] := by simp
      rw [hre, hpre]
      simp [List.append_assoc]

lemma flatten_pairs_getElem (f : Nat → Char) :
    ∀ (ls : List Nat) (j : Nat) (hj : j < ls.length),
      ((ls.map (fun v => [f v, ' '])).flatten)[2 * j]? = some (f ls[j]) := by
  intro ls
  induction ls with
  | nil => intro j hj; simp at hj
  | cons v ls ih =>
    intro j hj
    cases j with
    | zero => simp
    | succ j =>
      have hj' : j < ls.length := by simpa using Nat.succ_le_succ_iff.mp hj
      rw [List.map_cons, List.flatten_cons]
      have hix : 2 * (j + 1) = ([f v, ' '] : List Char).length + 2 * j := by
        simp
        omega
      rw [hix, List.getElem?_append_right (by omega)]
      have : ([f v, ' '] : List Char).length + 2 * j -
          ([f v, ' '] : List Char).length = 2 * j := by omega
      rw [this, ih j hj']
      simp

lemma levelRow_getElem (levels : List Nat) (lvl : Nat) (j : Nat)
    (hj : j < levels.length) :
    (levelRow levels lvl)[(natRepr lvl).length + 3 + 2 * j]? =
      some (if lvl ≤ levels[j] then '#' else ' ') := by
  unfold levelRow
  rw [List.append_assoc]
  have hlen : (natRepr lvl).length + 3 + 2 * j =
      (natRepr lvl).length + (3 + 2 * j) := by omega
  rw [hlen, List.getElem?_append_right (by omega)]
  have h1 : (natRepr lvl).length + (3 + 2 * j) - (natRepr lvl).length =
      3 + 2 * j := by omega
  rw [h1]
  have h2 : 3 + 2 * j = (" | ".toList).length + 2 * j := by
    simp
  rw [h2, List.getElem?_append_right (by omega)]
  have h3 : (" | ".toList).length + 2 * j - (" | ".toList).length = 2 * j := by
    omega
  rw [h3]
  exact flatten_pairs_getElem (fun v => if lvl ≤ v then '#' else ' ') levels j hj

lemma graph_take (results : List ClassificationResult) :
    (_print_ascii_graph results).take (graphMaxLevel results) =
      (List.range (graphMaxLevel results)).map (fun i =>
        rstrip (levelRow (graphLevels results) (graphMaxLevel results - i))) := by
  unfold _print_ascii_graph
  rw [List.append_assoc, List.append_assoc]
  have hlen : ((List.range (graphMaxLevel results)).map (fun i =>
      rstrip (levelRow (graphLevels results)
        (graphMaxLevel results - i)))).length = graphMaxLevel results := by
    simp
  exact List.take_left' hlen

lemma graph_length (results : List ClassificationResult) :
    (_print_ascii_graph results).length =
      graphMaxLevel results + 2 +
        (if 1 < (graphParagraphs results).eraseDups.length then 1 else 0) := by
  unfold _print_ascii_graph
  by_cases h : 1 < (graphParagraphs results).eraseDups.length <;>
    simp [h, List.length_append]

/-! ### Paragraph-level helpers -/

lemma split_paragraphs_length (text : List Char) :
    (split_paragraphs text).length =
      ((splitlines text).filter (fun l => strip l ≠ [])).length := by
  unfold split_paragraphs
  rw [List.filter_map, List.length_map]
  rfl

lemma paragraphs_stripped {text p : List Char}
    (hp : p ∈ split_paragraphs text) : p ≠ [] ∧ strip p = p := by
  unfold split_paragraphs at hp
  obtain ⟨hmem, hne⟩ := List.mem_filter.mp hp
  obtain ⟨line, _, rfl⟩ := List.mem_map.mp hmem
  exact ⟨by simpa using hne, strip_idem line⟩

lemma index_row_rstrip {n : Nat} (hn : 0 < n) :
    rstrip ("     ".toList ++ List.intercalate [' ']
        ((List.range n).map (fun i => natRepr (i + 1)))) =
      "     ".toList ++ List.intercalate [' ']
        ((List.range n).map (fun i => natRepr (i + 1))) := by
  obtain ⟨m, rfl⟩ : ∃ m, n = m + 1 := ⟨n - 1, by omega⟩
  rw [List.range_succ, List.map_append]
  have hmap : (List.map (fun i => natRepr (i + 1)) [m]) = [natRepr (m + 1)] := by
    simp
  rw [hmap]
  obtain ⟨pre, hpre⟩ := intercalate_concat [' ']
    ((List.range m).map (fun i => natRepr (i + 1))) (natRepr (m + 1))
  rw [hpre]
  obtain ⟨u, k, hk, hu⟩ := natRepr_concat (m + 1)
  rw [hu,
    show "     ".toList ++ (pre ++ (u ++ [Char.ofNat (48 + k)])) =
      ("     ".toList ++ pre ++ u) ++ [Char.ofNat (48 + k)] from by
        simp [List.append_assoc]]
  rw [rstrip_concat_nonws (digit_not_space hk)]

/-! ## The claims -/

/-- Claim C1 counterexample (the claim is corrected): the response text
`"0"` parses to level `0`, which `analyze_sentence` returns as-is even
though `0` is outside `{1,...,5}` — no `ClassifierError` is raised for an
out-of-range digit. -/
theorem claim_C1_counterexample :
    analyze_sentence ("0".toList) = Except.ok 0 ∧
      (0 : Nat) ∉ Finset.Icc 1 5 :=
  ⟨rfl, by decide⟩

/-- Claim C1 (corrected): for every classifier response text,
`analyze_sentence` either raises (no digit in the response / failed call)
or returns the first digit found, which lies in `{0,...,9}`; digits
outside `1..5` are *not* rejected (see `claim_C1_counterexample`). -/
theorem claim_C1_parsed_digit_bounds (content : List Char) :
    (∃ e, analyze_sentence content = Except.error e) ∨
      ∃ l, analyze_sentence content = Except.ok l ∧ l ≤ 9 := by
  unfold analyze_sentence
  cases hf : firstDigitChar (strip content) with
  | none => exact Or.inl ⟨(), rfl⟩
  | some c =>
    refine Or.inr ⟨c.toNat - '0'.toNat, rfl, ?_⟩
    have hd := isDigit_toNat_bounds (firstDigitChar_isDigit hf)
    have h0 : '0'.toNat = 48 := rfl
    omega

/-- Claim C2 counterexample (the claim is corrected): the fullwidth
exclamation mark `！` (U+FF01) is *not* treated as terminal punctuation:
`"A！B"` stays one sentence instead of splitting into `["A！", "B"]`. -/
theorem claim_C2_counterexample :
    split_into_sentences ("A！B".toList) = ["A！B".toList] ∧
      split_into_sentences ("A！B".toList) ≠ ["A！".toList, "B".toList] :=
  ⟨by decide, by decide⟩

/-- Claim C2 (corrected): only `。．.!?` — the halfwidth `!` and `?` and
the fullwidth stops `。` and `．` — are sentence terminals; the fullwidth
`！` (U+FF01) and `？` (U+FF1F) are not split points, so `"A！B"` and
`"A？B"` stay single sentences while `"A!B"` and `"A?B"` split. -/
theorem claim_C2_amended_fullwidth_not_terminal :
    isSentenceEnding '！' = false ∧ isSentenceEnding '？' = false ∧
      isSentenceEnding '!' = true ∧ isSentenceEnding '?' = true ∧
      split_into_sentences ("A！B".toList) = ["A！B".toList] ∧
      split_into_sentences ("A？B".toList) = ["A？B".toList] ∧
      split_into_sentences ("A!B".toList) = ["A!".toList, "B".toList] ∧
      split_into_sentences ("A?B".toList) = ["A?".toList, "B".toList] := by
  refine ⟨by decide, by decide, by decide, by decide, by decide, by decide,
    by decide, by decide⟩

/-- Claim C3 (confirmed): for every classifier and text, `analyze_text`
is exactly the paragraph-major, sentence-minor traversal of the document
(the flat map over enumerated paragraphs, in order), and the constant-3
mock on `"A。B。C。"` yields the three results A, B, C in order, all with
level 3 and paragraph 1. -/
theorem claim_C3_document_order (classify : List Char → Nat)
    (text : List Char) :
    analyze_text classify text =
        (split_paragraphs text).enum.flatMap (fun pi =>
          (split_into_sentences pi.2).map (fun s =>
            ⟨s, classify s, pi.1 + 1⟩))
    ∧ analyze_text (fun _ => 3) ("A。B。C。".toList) =
        [⟨"A。".toList, 3, 1⟩, ⟨"B。".toList, 3, 1⟩, ⟨"C。".toList, 3, 1⟩] :=
  ⟨analyze_text_eq_flatMap classify text, by decide⟩

/-- Claim C4 (confirmed): concatenating the sentences of
`split_into_sentences T` yields a subsequence of `T` (segmentation only
deletes characters, never inserts, duplicates or reorders), and the
deleted characters are exactly whitespace: filtering out whitespace, the
concatenation equals `T`'s non-whitespace content in order. -/
theorem claim_C4_content_preserved (T : List Char) :
    List.Sublist ((split_into_sentences T).flatten) T
    ∧ ((split_into_sentences T).flatten).filter (fun c => !isPySpace c) =
        T.filter (fun c => !isPySpace c) :=
  ⟨split_flatten_sublist T, split_flatten_filter T⟩

/-- Claim C5 counterexample (the claim is corrected): when `fewshot.json`
exists but is malformed, `_load_few_shot_examples` returns the *empty*
string (line 46 of the source), not the built-in 5-example set. -/
theorem claim_C5_counterexample :
    _load_few_shot_examples (some (Except.error ())) = [] ∧
      builtin_few_shot_examples ≠ [] :=
  ⟨rfl, by decide⟩

/-- Claim C5 (corrected): loading never raises (it is a total function on
every file state), the built-in set is returned only when the file does
not exist, and a malformed existing file degrades to the *empty*
calibration string rather than the built-in set. -/
theorem claim_C5_amended_load_fallbacks :
    _load_few_shot_examples none = builtin_few_shot_examples ∧
      (∀ e : Unit, _load_few_shot_examples (some (Except.error e)) = []) ∧
      builtin_few_shot_examples ≠ [] :=
  ⟨rfl, fun _ => rfl, by decide⟩

/-- Claim C6 (confirmed): the paragraph list has exactly one entry per
non-blank line (in document order), every result's paragraph index lies
in `1..K`, every index in `1..K` is hit by at least one result, and the
indices appear in nondecreasing order — dense `1..K` with no gaps, no
matter how many blank lines are interspersed. -/
theorem claim_C6_paragraph_indices_dense (classify : List Char → Nat)
    (text : List Char) :
    (split_paragraphs text).length =
        ((splitlines text).filter (fun l => strip l ≠ [])).length
    ∧ (∀ r ∈ analyze_text classify text,
        1 ≤ r.paragraph ∧ r.paragraph ≤ (split_paragraphs text).length)
    ∧ (∀ j, 1 ≤ j → j ≤ (split_paragraphs text).length →
        ∃ r ∈ analyze_text classify text, r.paragraph = j)
    ∧ List.Pairwise (· ≤ ·)
        ((analyze_text classify text).map (fun r => r.paragraph)) := by
  refine ⟨split_paragraphs_length text, ?_, ?_, ?_⟩
  · intro r hr
    rw [analyze_text_eq_flatMap] at hr
    obtain ⟨pi, hpi, hr2⟩ := List.mem_flatMap.mp hr
    obtain ⟨s, _, rfl⟩ := List.mem_map.mp hr2
    obtain ⟨i, p⟩ := pi
    rw [List.enum_eq_enumFrom] at hpi
    have hi := (List.mem_enumFrom hpi).2.1
    refine ⟨?_, ?_⟩
    · show 1 ≤ i + 1
      omega
    · show i + 1 ≤ (split_paragraphs text).length
      omega
  · intro j hj1 hjK
    have hidx : j - 1 < (split_paragraphs text).length := by omega
    have hpmem : (split_paragraphs text)[j - 1] ∈ split_paragraphs text :=
      List.getElem_mem hidx
    have hp1 := paragraphs_stripped hpmem
    have hsent := split_into_sentences_ne_nil hp1.2 hp1.1
    obtain ⟨s, hs⟩ := List.exists_mem_of_ne_nil _ hsent
    refine ⟨⟨s, classify s, (j - 1) + 1⟩, ?_, ?_⟩
    · rw [analyze_text_eq_flatMap]
      apply List.mem_flatMap.mpr
      refine ⟨(j - 1, (split_paragraphs text)[j - 1]), ?_, ?_⟩
      · have hlen : j - 1 < (split_paragraphs text).enum.length := by
          rw [List.enum_length]
          exact hidx
        have he : (split_paragraphs text).enum[j - 1] =
            (j - 1, (split_paragraphs text)[j - 1]) :=
          List.getElem_enum ..
        have hm := List.getElem_mem hlen
        rw [he] at hm
        exact hm
      · exact List.mem_map.mpr ⟨s, hs, rfl⟩
    · show (j - 1) + 1 = j
      omega
  · rw [analyze_text_eq_flatMap, List.map_flatMap]
    have hfun : (fun (pi : Nat × List Char) =>
        ((split_into_sentences pi.2).map
          (fun s => (⟨s, classify s, pi.1 + 1⟩ : ClassificationResult))).map
            (fun r => r.paragraph))
        = fun pi =>
            List.replicate (split_into_sentences pi.2).length (pi.1 + 1) := by
      funext pi
      rw [List.map_map]
      exact List.map_const' _ _
    rw [hfun, List.enum_eq_enumFrom]
    exact pairwise_le_flatMap_enumFrom
      (fun p => (split_into_sentences p).length) (split_paragraphs text) 0

/-- Claim C7 (confirmed): a text with no terminal punctuation yields
exactly one sentence, the trimmed input, or no sentence at all when the
trimmed input is empty; the splitter is a total function and never
raises. -/
theorem claim_C7_no_terminal_single_sentence (T : List Char)
    (h : ∀ c ∈ T, isSentenceEnding c = false) :
    split_into_sentences T = if strip T = [] then [] else [strip T] :=
  split_of_no_ending h

/-- Witness for claim C7, at the punctuation-free sentence used by the
repository's own test suite. -/
theorem claim_C7_witness :
    split_into_sentences ("みたいなのもテストケースに含めたいわけで".toList) =
      if strip ("みたいなのもテストケースに含めたいわけで".toList) = [] then []
      else [strip ("みたいなのもテストケースに含めたいわけで".toList)] :=
  claim_C7_no_terminal_single_sentence _ (by decide)

/-- Claim C8 (confirmed): the graph's first `M` lines (`M` = maximum
level) are the level rows for `M, M-1, ..., 1` in that order, each the
`rstrip` of `levelRow`; the full line count is `M` rows plus separator
and index lines (plus the marker line when several paragraphs occur);
within a row for level `lvl`, the marker at position `j` is `#` exactly
when the `j`-th level is `≥ lvl`; and the `[1,3,2]` scenario renders as
rows 3, 2, 1 marking positions {2}, {2,3} and {1,2,3}. -/
theorem claim_C8_level_rows (results : List ClassificationResult) :
    (_print_ascii_graph results).take (graphMaxLevel results) =
        (List.range (graphMaxLevel results)).map (fun i =>
          rstrip (levelRow (graphLevels results) (graphMaxLevel results - i)))
    ∧ (_print_ascii_graph results).length =
        graphMaxLevel results + 2 +
          (if 1 < (graphParagraphs results).eraseDups.length then 1 else 0)
    ∧ (∀ lvl j, ∀ hj : j < (graphLevels results).length,
        (levelRow (graphLevels results) lvl)[(natRepr lvl).length + 3 + 2 * j]? =
          some (if lvl ≤ (graphLevels results)[j] then '#' else ' '))
    ∧ _print_ascii_graph [⟨['a'], 1, 1⟩, ⟨['b'], 3, 1⟩, ⟨['c'], 2, 1⟩] =
        ["3 |   #".toList, "2 |   # #".toList, "1 | # # #".toList,
         "    ------".toList, "     1 2 3".toList] :=
  ⟨graph_take results, graph_length results,
    fun lvl j hj => levelRow_getElem _ lvl j hj, by decide⟩

/-- Claim C9 counterexample (the claim is corrected): on the empty result
sequence the separator line is four spaces, which is *not* equal to its
own `rstrip` — the graph does emit lines with trailing whitespace in the
empty case (the separator and index lines are printed without
`rstrip`). -/
theorem claim_C9_counterexample :
    _print_ascii_graph [] = ["    ".toList, "     ".toList] ∧
      rstrip ("    ".toList) ≠ "    ".toList :=
  ⟨by decide, by decide⟩

/-- Claim C9 (corrected): for every *non-empty* result sequence, every
line emitted by `_print_ascii_graph` equals its own `rstrip` (no trailing
whitespace); for the empty sequence the two axis lines are all-spaces
(see `claim_C9_counterexample`). -/
theorem claim_C9_amended_lines_rstripped (results : List ClassificationResult)
    (hres : results ≠ []) :
    ∀ line ∈ _print_ascii_graph results, rstrip line = line := by
  intro line hline
  unfold _print_ascii_graph at hline
  rw [List.append_assoc, List.append_assoc] at hline
  rcases List.mem_append.mp hline with h1 | h1
  · obtain ⟨i, _, rfl⟩ := List.mem_map.mp h1
    exact rstrip_idem _
  · rcases List.mem_append.mp h1 with h2 | h2
    · rw [List.mem_singleton.mp h2]
      have hn : 0 < (graphLevels results).length := by
        simp only [graphLevels, List.length_map]
        exact List.length_pos.mpr hres
      obtain ⟨k, hk⟩ : ∃ k, 2 * (graphLevels results).length = k + 1 :=
        ⟨2 * (graphLevels results).length - 1, by omega⟩
      rw [hk, List.replicate_succ',
        show "    ".toList ++ (List.replicate k '-' ++ ['-']) =
          ("    ".toList ++ List.replicate k '-') ++ ['-'] from by
            simp [List.append_assoc]]
      exact rstrip_concat_nonws (by decide) _
    · rcases List.mem_append.mp h2 with h3 | h3
      · rw [List.mem_singleton.mp h3]
        have hn : 0 < (graphLevels results).length := by
          simp only [graphLevels, List.length_map]
          exact List.length_pos.mpr hres
        exact index_row_rstrip hn
      · by_cases hc : 1 < (graphParagraphs results).eraseDups.length
        · rw [if_pos hc] at h3
          rw [List.mem_singleton.mp h3]
          exact rstrip_idem _
        · rw [if_neg hc] at h3
          exact absurd h3 (List.not_mem_nil line)

/-- Witness for claim C9, on a one-sentence result list: its level row
has no trailing whitespace. -/
theorem claim_C9_witness : rstrip ("1 | #".toList) = "1 | #".toList :=
  claim_C9_amended_lines_rstripped [⟨['a'], 1, 1⟩] (by decide)
    ("1 | #".toList) (by decide)

/-- Claim C10 (confirmed): every sentence produced by the splitter is
non-empty, equal to its own trim, contains terminal punctuation at most
as its final character, and splitting it again returns exactly itself —
segmentation is idempotent on its own output. -/
theorem claim_C10_idempotent (T s : List Char)
    (hs : s ∈ split_into_sentences T) :
    s ≠ [] ∧ strip s = s ∧
      (∀ c ∈ s.dropLast, isSentenceEnding c = false) ∧
      split_into_sentences s = [s] := by
  unfold split_into_sentences at hs
  obtain ⟨hmem, hne⟩ := List.mem_filter.mp hs
  have hne' : s ≠ [] := by simpa using hne
  obtain ⟨p, hpmem, rfl⟩ := List.mem_map.mp hmem
  have hdl := splitAtTerminals_dropLast hpmem
  obtain ⟨h1, h2⟩ := strip_piece_split hdl
  exact ⟨hne', strip_idem p, h1, h2 hne'⟩

/-- Witness for claim C10, at the first sentence of `"A。B"`. -/
theorem claim_C10_witness :
    "A。".toList ≠ [] ∧ strip ("A。".toList) = "A。".toList ∧
      (∀ c ∈ ("A。".toList).dropLast, isSentenceEnding c = false) ∧
      split_into_sentences ("A。".toList) = ["A。".toList] :=
  claim_C10_idempotent ("A。B".toList) ("A。".toList) (by decide)

end AbstractLevelAnalyzer
